import Mathlib

/-!
Verification of the repr-format structural value formatter.

This development embeds the buffered, layout-deferred formatting engine of
the repository: the fragment model and `Buffer.flush` (src/buffer.ts and the
compiled bundle), the walking `Formatter` (src/formatter.ts), the reference
tracker (src/formatters/ref.ts), the default object formatter with its
per-field error handling, string escaping (src/util/escape.ts), identifier
validation (src/util/isIdentifier.ts) and the options handling of the
`Formatter` constructor.

Modelling conventions:
  numbers are embedded as `Int`, object identity as a `Nat` id into a heap of
  plain objects (string keys only); `Infinity`-valued options are `Option`
  `none`; the two deferred thunks produced by `formatReference` are the
  dedicated fragment constructors `source` and `backref`, and a client
  deferred thunk returning a fixed fragment array is `thunk`; proxy
  detection is the default `() => false` used when no node utilities are
  available, so the proxy branch of `Formatter.format` is dead code and is
  omitted; walking functions take an explicit fuel argument, with
  termination stated as existence of sufficient fuel.
-/

set_option maxHeartbeats 4000000
set_option maxRecDepth 4000

/-! ## Fragment model (src/buffer.ts) -/

/-- Fragments of a `Buffer`, from src/buffer.ts and the compiled bundle:
strings, hard and soft breaks, styled spans (`{style, value}` with `value` a
fragment or fragment array), nested buffers, and the three deferred forms:
a pure thunk returning a fragment array, and the `source`/`backref` thunks
created by `formatReference`, which close over the per-reference counter
state (represented here by the reference id they read). -/
inductive Frag where
  | str (s : String)
  | hardBreak (indent : Nat)
  | softBreak (text : String) (indent : Nat)
  | styled (tag : String) (value : List Frag)
  | buf (fragments : List Frag)
  | thunk (fs : List Frag)
  | source (rid : Nat)
  | backref (rid : Nat)

/-- An `Immediate` piece of output produced by the first pass of `flush`:
a string, or a break placeholder carrying its indent level. -/
inductive Piece where
  | str (s : String)
  | hardBreak (indent : Nat)
  | softBreak (text : String) (indent : Nat)
deriving DecidableEq

/-- Options passed to `Buffer.flush`. `maxComplexity` is `none` for
`Infinity` (unbounded). -/
structure FlushOptions where
  depth : Nat
  indent : String
  maxComplexity : Option Nat
  style : String → String × String

/-- Result of flushing a buffer (the `Result` type of src/buffer.ts). -/
structure FlushResult where
  value : String
  complexity : Nat
  multiline : Bool
deriving DecidableEq

/-- The mutable state of the reference closures read and written during
flush: the session counter (`REF_NUMBER`) and the numbers assigned to
references so far (each `ref.number`), in assignment order. -/
structure RefSt where
  counter : Nat
  numbers : List (Nat × Nat)
deriving DecidableEq

/-- Lookup in an association list with default `0`; models reading
`ref.count` (or `ref.number`, both initialised to `0`). -/
def lookupD (l : List (Nat × Nat)) (k : Nat) : Nat :=
  ((l.find? (fun p => p.1 == k)).map Prod.snd).getD 0

/-- The string `indent.repeat(n)`. -/
def repeatStr (s : String) (n : Nat) : String :=
  String.join (List.replicate n s)

/-- Second pass of `Buffer.flush`: concatenate the pieces, rendering break
placeholders as a newline plus indentation when `multiline`, else as the
soft break's text (hard breaks contribute nothing when collapsed). -/
def renderPieces (indent : String) (multiline : Bool) : List Piece → String
  | [] => ""
  | .str s :: rest => s ++ renderPieces indent multiline rest
  | .hardBreak i :: rest =>
      (if multiline then "\n" ++ repeatStr indent i else "") ++
        renderPieces indent multiline rest
  | .softBreak t i :: rest =>
      (if multiline then "\n" ++ repeatStr indent i else t) ++
        renderPieces indent multiline rest

mutual

/-- The `processFragment` closure of `Buffer.flush`, with the mutation of
`result`/`partial` made explicit: returns the pieces contributed by the
fragment, its contribution to the accumulated complexity and multiline
flag, and the updated reference state.  The `source` and `backref` cases
are the two thunks of `formatReference` with their returned fragment
arrays processed inline (a styled `hint` span resolves to its enter
markup, its text and its exit markup). -/
def processFragment (counts : List (Nat × Nat)) (opts : FlushOptions) :
    Frag → RefSt → (List Piece × Nat × Bool × RefSt)
  | .str s, rs => ([.str s], 0, false, rs)
  | .hardBreak i, rs => ([.hardBreak i], 0, true, rs)
  | .softBreak t i, rs => ([.softBreak t i], 0, false, rs)
  | .styled tag value, rs =>
      let m := opts.style tag
      let r := processFragList counts opts value rs
      ([.str m.1] ++ r.1 ++ [.str m.2], r.2.1, r.2.2.1, r.2.2.2)
  | .buf fragments, rs =>
      let r := flush counts { opts with depth := opts.depth + 1 } fragments rs
      ([.str r.1.value], r.1.complexity, r.1.multiline, r.2)
  | .thunk fs, rs => processFragList counts opts fs rs
  | .source rid, rs =>
      if lookupD counts rid = 0 then ([], 0, false, rs)
      else
        let num := rs.counter
        let rs' : RefSt := ⟨num + 1, rs.numbers ++ [(rid, num)]⟩
        let m := opts.style "hint"
        ([.str m.1, .str ("#" ++ toString num), .str m.2, .str " = "],
         0, false, rs')
  | .backref rid, rs =>
      let m := opts.style "hint"
      ([.str m.1, .str ("#" ++ toString (lookupD rs.numbers rid) ++ "#"), .str m.2],
       0, false, rs)

/-- Processing of a fragment array (`fragment.forEach(processFragment)`),
threading the reference state left to right. -/
def processFragList (counts : List (Nat × Nat)) (opts : FlushOptions) :
    List Frag → RefSt → (List Piece × Nat × Bool × RefSt)
  | [], rs => ([], 0, false, rs)
  | f :: rest, rs =>
      let r := processFragment counts opts f rs
      let r' := processFragList counts opts rest r.2.2.2
      (r.1 ++ r'.1, r.2.1 + r'.2.1, r.2.2.1 || r'.2.2.1, r'.2.2.2)

/-- `Buffer.flush`: process the fragments, force `multiline` when the
accumulated complexity reaches a finite `maxComplexity`, render the pieces
and return complexity plus one. -/
def flush (counts : List (Nat × Nat)) (opts : FlushOptions)
    (fragments : List Frag) (rs : RefSt) : FlushResult × RefSt :=
  let r := processFragList counts opts fragments rs
  let multiline := r.2.2.1 ||
    (match opts.maxComplexity with
     | some mc => decide (mc ≤ r.2.1)
     | none => false)
  (⟨renderPieces opts.indent multiline r.1, r.2.1 + 1, multiline⟩, r.2.2.2)

end

/-! ## Structural measures over buffers (specification side) -/

mutual

/-- Whether a hard break occurs in a fragment's transitively flushed
content, following exactly the traversal of `processFragment` (styled
spans, pure thunks and nested buffers are entered; the reference thunks
resolve to plain text). -/
def hasHardBreakF : Frag → Bool
  | .str _ => false
  | .hardBreak _ => true
  | .softBreak _ _ => false
  | .styled _ value => hasHardBreakL value
  | .buf fragments => hasHardBreakL fragments
  | .thunk fs => hasHardBreakL fs
  | .source _ => false
  | .backref _ => false

/-- `hasHardBreakF` over a fragment array. -/
def hasHardBreakL : List Frag → Bool
  | [] => false
  | f :: rest => hasHardBreakF f || hasHardBreakL rest

end

mutual

/-- Complexity contributed by one fragment to its enclosing buffer: a
directly nested buffer contributes its own complexity (one plus its nested
sum); styled spans and pure thunks are looked through. -/
def nestedCpxF : Frag → Nat
  | .str _ => 0
  | .hardBreak _ => 0
  | .softBreak _ _ => 0
  | .styled _ value => nestedCpxL value
  | .buf fragments => nestedCpxL fragments + 1
  | .thunk fs => nestedCpxL fs
  | .source _ => 0
  | .backref _ => 0

/-- Sum of the complexities of the buffers directly nested in a fragment
array (reached through arrays, thunks and styled spans). -/
def nestedCpxL : List Frag → Nat
  | [] => 0
  | f :: rest => nestedCpxF f + nestedCpxL rest

end

mutual

/-- The fragment arrays of the buffers directly nested in a fragment
(through styled spans and pure thunks, not entering buffers). -/
def directBufsF : Frag → List (List Frag)
  | .str _ => []
  | .hardBreak _ => []
  | .softBreak _ _ => []
  | .styled _ value => directBufsL value
  | .buf fragments => [fragments]
  | .thunk fs => directBufsL fs
  | .source _ => []
  | .backref _ => []

/-- `directBufsF` over a fragment array. -/
def directBufsL : List Frag → List (List Frag)
  | [] => []
  | f :: rest => directBufsF f ++ directBufsL rest

end

/-- The complexity threshold check of `flush`: true when `maxComplexity` is
finite and the accumulated complexity `c` reaches it. -/
def thr (mco : Option Nat) (c : Nat) : Bool :=
  match mco with
  | some mc => decide (mc ≤ c)
  | none => false

mutual

/-- Multiline contribution of one fragment, mirroring `processFragment`:
hard breaks force it, nested buffers contribute their own flushed
multiline flag (their content's flag, or their own threshold check). -/
def mlF (mco : Option Nat) : Frag → Bool
  | .str _ => false
  | .hardBreak _ => true
  | .softBreak _ _ => false
  | .styled _ value => mlL mco value
  | .buf fragments => mlL mco fragments || thr mco (nestedCpxL fragments)
  | .thunk fs => mlL mco fs
  | .source _ => false
  | .backref _ => false

/-- `mlF` over a fragment array. -/
def mlL (mco : Option Nat) : List Frag → Bool
  | [] => false
  | f :: rest => mlF mco f || mlL mco rest

end

/-! ## Values, heaps and utilities (src/util) -/

/-- A JavaScript value as seen by the formatter: primitives, or an
identity-bearing plain object given by its id into a heap. -/
inductive JsVal where
  | jsNull
  | jsUndefined
  | jsBool (b : Bool)
  | jsNum (n : Int)
  | jsStr (s : String)
  | jsObj (id : Nat)
deriving DecidableEq

/-- A property of an object: a data value, or an accessor whose getter
throws an `Error` with the given name and message. -/
inductive JsProp where
  | val (v : JsVal)
  | getterThrow (name msg : String)
deriving DecidableEq

/-- An object is its (insertion-ordered) enumerable string-keyed
properties. -/
abbrev JsObject := List (String × JsProp)

/-- A heap maps object ids to objects. All objects are plain (`Object`
constructor, no `Symbol.toStringTag`), so `objectName` returns `null` for
every one of them. -/
abbrev Heap := List (Nat × JsObject)

/-- Fields of the object with the given id (objects absent from the heap
read as empty). -/
def lookupObj (heap : Heap) (id : Nat) : JsObject :=
  ((heap.find? (fun p => p.1 == id)).map Prod.snd).getD []

/-- util/escape.ts: replacement for one character of the control-character
class `[\0\n\r\v\t\b\f]` (other characters are left alone). -/
def escapeChar (c : Char) : List Char :=
  if c = '\x00' then ['\\', '0']
  else if c = '\n' then ['\\', 'n']
  else if c = '\r' then ['\\', 'r']
  else if c = '\x0b' then ['\\', 'v']
  else if c = '\t' then ['\\', 't']
  else if c = '\x08' then ['\\', 'b']
  else if c = '\x0c' then ['\\', 'f']
  else [c]

/-- Membership in the control-character class of `escape`. -/
def isCtlChar (c : Char) : Bool :=
  c = '\x00' || c = '\n' || c = '\r' || c = '\x0b' || c = '\t' ||
    c = '\x08' || c = '\x0c'

/-- util/escape.ts `escape(str, terminator)`: rewrite the control-character
class, then escape every occurrence of the terminator character with a
leading backslash. The terminator is modelled as a literal character (the
repository only ever passes `"`). -/
def escape (s : String) (terminator : Option Char) : String :=
  let r := (s.data.map escapeChar).flatten
  match terminator with
  | none => String.mk r
  | some t => String.mk ((r.map (fun c => if c = t then ['\\', t] else [c])).flatten)

/-- First character class of the identifier regex `[a-zA-Z_$]`. -/
def isIdentStart (c : Char) : Bool :=
  ('a' ≤ c && c ≤ 'z') || ('A' ≤ c && c ≤ 'Z') || c = '_' || c = '$'

/-- Continuation class `[a-zA-Z0-9_$]`. -/
def isIdentCont (c : Char) : Bool :=
  isIdentStart c || ('0' ≤ c && c ≤ '9')

/-- util/isIdentifier.ts: match against `^[a-zA-Z_$][a-zA-Z0-9_$]*$`. -/
def isIdentifier (s : String) : Bool :=
  match s.data with
  | [] => false
  | c :: cs => isIdentStart c && cs.all isIdentCont

/-- Lexicographic (code point) order on strings, the order induced by the
string branch of util/compareKeys.ts (`a < b ? -1 : a > b ? 1 : 0`). -/
def charsLe : List Char → List Char → Bool
  | [], _ => true
  | _ :: _, [] => false
  | a :: as, b :: bs => if a < b then true else if b < a then false else charsLe as bs

/-- Insert one field into a key-sorted field list. -/
def insertField (p : String × JsProp) : List (String × JsProp) → List (String × JsProp)
  | [] => [p]
  | q :: rest =>
      if charsLe p.1.data q.1.data then p :: q :: rest else q :: insertField p rest

/-- `Reflect.ownKeys(this).sort(util.compareKeys)` for string keys:
sort the fields by key in ascending lexicographic order. -/
def sortFields : List (String × JsProp) → List (String × JsProp)
  | [] => []
  | p :: rest => insertField p (sortFields rest)

/-! ## The walking formatter (src/formatter.ts) -/

/-- The per-session state of a `Formatter` while walking a value:
the current buffer (`this.result`), the indentation depth, the `seen`
map (ids of visited objects, most recent first), the reference counters
(`ref.count` per reference, in first-visit order), and — as observational
instrumentation only — the ids of re-encountered objects in `addRef`
order. -/
structure WalkSt where
  cur : List Frag
  depth : Nat
  seen : List Nat
  counts : List (Nat × Nat)
  reenc : List Nat

/-- Increment `ref.count` for the given reference. -/
def bumpCount : List (Nat × Nat) → Nat → List (Nat × Nat)
  | [], _ => []
  | (k, n) :: rest, id =>
      if k = id then (k, n + 1) :: rest else (k, n) :: bumpCount rest id

/-- The string-splitting loop of `Formatter._write`: scan for `'\n'`,
pushing the text up to and including the newline followed by a hard break
at the current depth; `pre` holds the scanned prefix of the current piece
in reverse. -/
def writeChars (depth : Nat) (pre : List Char) : List Char → List Frag
  | [] => [.str (String.mk pre.reverse)]
  | c :: cs =>
      if c = '\n' then
        .str (String.mk (pre.reverse ++ ['\n'])) :: .hardBreak depth ::
          (if cs.isEmpty then [] else writeChars depth [] cs)
      else writeChars depth (c :: pre) cs

/-- `Formatter._write` on a string fragment. -/
def writeString (st : WalkSt) (s : String) : WalkSt :=
  { st with cur := st.cur ++ writeChars st.depth [] s.data }

/-- `Formatter._write` on a non-string fragment: push it unchanged. -/
def writeFrag (st : WalkSt) (f : Frag) : WalkSt :=
  { st with cur := st.cur ++ [f] }

/-- `SubFormatter.write_item` up to the item callback: a comma when the
sub-formatter already has elements, then a soft break (single space when
collapsed) at the current depth. -/
def writeItemPre (hasElements : Bool) (st : WalkSt) : WalkSt :=
  let st := if hasElements then writeString st "," else st
  writeFrag st (.softBreak " " st.depth)

/-- The key-writing part of `Struct.write_field`: a valid identifier is
written bare, any other string key is formatted as a string (quoted and
escaped, in the `string` style). -/
def writeKey (key : String) (st : WalkSt) : WalkSt :=
  if isIdentifier key then writeString st key
  else writeFrag st (.styled "string"
    [.str "\"", .str (escape key (some '"')), .str "\""])

/-- The hint fragment array built by the `catch` in `formatField`:
`[ex.name, ' when accessing field']`, plus `[': ', ex.message]` when the
message is non-empty. -/
def hintContent (name msg : String) : List Frag :=
  if msg = "" then [.str name, .str " when accessing field"]
  else [.str name, .str " when accessing field", .str ": ", .str msg]

mutual

/-- `Formatter.format`: null short-circuit, cycle detection for objects
(a re-encounter bumps the count and writes the back-reference thunk; a
first visit registers the reference and writes its source thunk, then the
object dispatches through `Object.prototype[represent] = formatObject`),
and default formatting for primitives. Fuel exhaustion yields `none`. -/
def formatV (heap : Heap) : Nat → JsVal → WalkSt → Option WalkSt
  | 0, _, _ => none
  | fuel + 1, v, st =>
    match v with
    | .jsNull => some (writeFrag st (.styled "null" [.str "null"]))
    | .jsObj id =>
        if st.seen.contains id then
          some (writeFrag
            { st with counts := bumpCount st.counts id, reenc := st.reenc ++ [id] }
            (.backref id))
        else
          let st := { st with seen := id :: st.seen, counts := st.counts ++ [(id, 0)] }
          let st := writeFrag st (.source id)
          formatObjectV heap fuel id st
    | .jsStr s => some (writeFrag st (.styled "string"
        [.str "\"", .str (escape s (some '"')), .str "\""]))
    | .jsNum n => some (writeFrag st (.styled "number" [.str (toString n)]))
    | .jsBool b => some (writeFrag st (.styled "number" [.str (toString b)]))
    | .jsUndefined => some (writeFrag st (.styled "undefined" [.str "undefined"]))

/-- `formatObject` composed with `Formatter.struct`/`_subformatter`: swap
in a fresh buffer, `begin` (plain objects have a `null` name, so only the
opening brace is written), raise the depth, emit the key-sorted fields,
lower the depth, `finish` (a trailing soft break when any element was
written, then the closing brace), and push the finished buffer into the
parent. -/
def formatObjectV (heap : Heap) : Nat → Nat → WalkSt → Option WalkSt
  | 0, _, _ => none
  | fuel + 1, id, st =>
      let fields := sortFields (lookupObj heap id)
      let parent := st.cur
      let st := { st with cur := [] }
      let st := writeString st "\x7b"
      let st := { st with depth := st.depth + 1 }
      match formatFieldsV heap fuel fields false st with
      | none => none
      | some (st, hasElements) =>
        let st := { st with depth := st.depth - 1 }
        let st := if hasElements then writeFrag st (.softBreak " " st.depth) else st
        let st := writeString st "\x7d"
        some { st with cur := parent ++ [.buf st.cur] }

/-- The field loop of `formatObject`, threading `has_elements`. -/
def formatFieldsV (heap : Heap) :
    Nat → List (String × JsProp) → Bool → WalkSt → Option (WalkSt × Bool)
  | 0, _, _, _ => none
  | _ + 1, [], hasElements, st => some (st, hasElements)
  | fuel + 1, (key, p) :: rest, hasElements, st =>
      match formatFieldV heap fuel key p hasElements st with
      | none => none
      | some st => formatFieldsV heap fuel rest true st

/-- `formatField`: reading a data property emits a normal field
(`write_item`, the key, `": "`, then the recursively formatted value);
a throwing getter is caught and the field is emitted with the inline
hint as its value instead. -/
def formatFieldV (heap : Heap) :
    Nat → String → JsProp → Bool → WalkSt → Option WalkSt
  | 0, _, _, _, _ => none
  | fuel + 1, key, p, hasElements, st =>
      match p with
      | .val v =>
          let st := writeItemPre hasElements st
          let st := writeKey key st
          let st := writeString st ": "
          formatV heap fuel v st
      | .getterThrow name msg =>
          let st := writeItemPre hasElements st
          let st := writeKey key st
          let st := writeString st ": "
          some (writeFrag st (.styled "hint" (hintContent name msg)))

end

/-! ## Constructor options and the public entry point -/

/-- A value of an option field. -/
inductive OptVal where
  | bool (b : Bool)
  | nat (n : Nat)
  | str (s : String)
  | styleFn (f : String → String × String)

/-- The option keys destructured by the `Formatter` constructor. -/
def recognizedOptions : List String :=
  ["pretty", "indent", "depth", "limitDepth", "maxComplexity", "style"]

/-- Find an option by key. -/
def findOpt (opts : List (String × OptVal)) (k : String) : Option OptVal :=
  (opts.find? (fun p => p.1 == k)).map Prod.snd

def getBoolOpt (opts : List (String × OptVal)) (k : String) (d : Bool) : Bool :=
  match findOpt opts k with
  | some (.bool b) => b
  | _ => d

def getNatOpt (opts : List (String × OptVal)) (k : String) (d : Nat) : Nat :=
  match findOpt opts k with
  | some (.nat n) => n
  | _ => d

def getFiniteOpt (opts : List (String × OptVal)) (k : String) : Option Nat :=
  match findOpt opts k with
  | some (.nat n) => some n
  | _ => none

def getStrOpt (opts : List (String × OptVal)) (k : String) (d : String) : String :=
  match findOpt opts k with
  | some (.str s) => s
  | _ => d

def getStyleOpt (opts : List (String × OptVal)) (k : String) :
    String → String × String :=
  match findOpt opts k with
  | some (.styleFn f) => f
  | _ => fun _ => ("", "")

/-- The configuration stored on a constructed `Formatter`. -/
structure Config where
  indent : String
  depth : Nat
  limitDepth : Option Nat
  maxComplexity : Option Nat
  style : String → String × String

/-- The `Formatter` constructor: destructure the recognized options (with
their defaults), throw on any remaining key, and store the fields;
`maxComplexity` is `maxComplexity ?? 3` when `pretty` is set and
`Infinity` (`none`) otherwise; `limitDepth` defaults to `Infinity`. -/
def mkFormatter (opts : List (String × OptVal)) : Except String Config :=
  let rest := opts.filter (fun p => !(recognizedOptions.contains p.1))
  if rest.isEmpty then
    .ok { indent := getStrOpt opts "indent" "  ",
          depth := getNatOpt opts "depth" 0,
          limitDepth := getFiniteOpt opts "limitDepth",
          maxComplexity :=
            if getBoolOpt opts "pretty" false then
              some (getNatOpt opts "maxComplexity" 3)
            else none,
          style := getStyleOpt opts "style" }
  else
    .error ("Invalid options to Formatter: " ++
      String.intercalate ", " (rest.map Prod.fst))

/-- The walk state of a freshly constructed `Formatter`. -/
def initSt (cfg : Config) : WalkSt :=
  { cur := [], depth := cfg.depth, seen := [], counts := [], reenc := [] }

/-- `Formatter.format` followed by `Formatter.toString`: walk the value
from a fresh session, then flush the result buffer with the stored
options. `none` when the given fuel does not suffice. -/
def formatWith (heap : Heap) (cfg : Config) (fuel : Nat) (v : JsVal) :
    Option String :=
  match formatV heap fuel v (initSt cfg) with
  | none => none
  | some st =>
      some (flush st.counts
        ⟨cfg.depth, cfg.indent, cfg.maxComplexity, cfg.style⟩
        st.cur ⟨0, []⟩).1.value

/-- The default configuration (`new Formatter({})`). -/
def defaultConfig : Config :=
  { indent := "  ", depth := 0, limitDepth := none, maxComplexity := none,
    style := fun _ => ("", "") }


/-- A pretty-printing configuration: `new Formatter({pretty: true})`
(so `maxComplexity` defaults to 3). -/
def prettyConfig : Config :=
  { indent := "  ", depth := 0, limitDepth := none, maxComplexity := some 3,
    style := fun _ => ("", "") }

/-- `Formatter.format` followed by `toString`, keeping the final walk
state and the full flush result, for stating properties of the reference
numbering. -/
def formatSession (heap : Heap) (cfg : Config) (fuel : Nat) (v : JsVal) :
    Option (WalkSt × (FlushResult × RefSt)) :=
  match formatV heap fuel v (initSt cfg) with
  | none => none
  | some st =>
      some (st, flush st.counts
        ⟨cfg.depth, cfg.indent, cfg.maxComplexity, cfg.style⟩
        st.cur ⟨0, []⟩)

/-- `new Formatter(options)` followed by `fmt.write(s)` and
`fmt.toString()`: the public raw-write path through `_write`. -/
def writeTop (cfg : Config) (s : String) : String :=
  let st := writeString (initSt cfg) s
  (flush st.counts ⟨cfg.depth, cfg.indent, cfg.maxComplexity, cfg.style⟩
    st.cur ⟨0, []⟩).1.value

/-- `Except.isOk` for the constructor result. -/
def isOkE (e : Except String Config) : Bool :=
  match e with
  | .ok _ => true
  | .error _ => false

/-! ## Reference tokens of a buffer (specification side) -/

/-- A reference token: a source-marker thunk or a back-reference thunk. -/
inductive Tok where
  | src (rid : Nat)
  | ref (rid : Nat)
deriving DecidableEq

mutual

/-- The reference tokens of a fragment, in the order `flush` resolves
them. -/
def toksF : Frag → List Tok
  | .str _ => []
  | .hardBreak _ => []
  | .softBreak _ _ => []
  | .styled _ value => toksL value
  | .buf fragments => toksL fragments
  | .thunk fs => toksL fs
  | .source rid => [.src rid]
  | .backref rid => [.ref rid]

/-- `toksF` over a fragment array. -/
def toksL : List Frag → List Tok
  | [] => []
  | f :: rest => toksF f ++ toksL rest

end

/-- The reference ids of the source tokens, in order. -/
def srcIds (ts : List Tok) : List Nat :=
  ts.filterMap (fun t => match t with | .src r => some r | .ref _ => none)

/-- Every back-reference token refers to an id either in the ambient
`seen` list or introduced by an earlier source token. -/
def refsOk (seen : List Nat) : List Tok → Bool
  | [] => true
  | .src rid :: rest => refsOk (rid :: seen) rest
  | .ref rid :: rest => seen.contains rid && refsOk seen rest

/-- The ids visible after a token list: ambient ids plus the ids of its
source tokens. -/
def seenAfter (seen : List Nat) : List Tok → List Nat
  | [] => seen
  | .src rid :: rest => seenAfter (rid :: seen) rest
  | .ref _ :: rest => seenAfter seen rest

/-- Position of the first occurrence of `x` in `l` (length of `l` when
absent). -/
def posIn (l : List Nat) (x : Nat) : Nat :=
  match l with
  | [] => 0
  | y :: rest => if y = x then 0 else posIn rest x + 1

/-- First occurrences of a list's elements, in order of first
occurrence. -/
def distinctInOrder (seen : List Nat) : List Nat → List Nat
  | [] => []
  | x :: rest =>
      if seen.contains x then distinctInOrder seen rest
      else x :: distinctInOrder (x :: seen) rest

/-- Pair the listed ids with consecutive numbers starting at `k`. -/
def numberFrom (k : Nat) : List Nat → List (Nat × Nat)
  | [] => []
  | rid :: rest => (rid, k) :: numberFrom (k + 1) rest

/-- The ids of the source tokens whose reference was re-encountered
(`ref.count > 0`), in token order: exactly the references `flush` assigns
visible numbers to. -/
def repeatedSrcIds (counts : List (Nat × Nat)) (ts : List Tok) : List Nat :=
  (srcIds ts).filter (fun rid => lookupD counts rid ≠ 0)

/-! ## Walk invariants (specification side) -/

/-- Relation between walk states across one walking step that appended
`δ` to the current buffer: newly sourced ids are fresh, `seen` grows by
exactly the sourced ids, no id is sourced twice, reference counters are
registered in source order, and every back-reference is preceded by its
source (or refers to an ambient id). -/
def WalkDelta (st st' : WalkSt) (δ : List Frag) : Prop :=
  st'.cur = st.cur ++ δ ∧
  (∀ rid, rid ∈ srcIds (toksL δ) → rid ∉ st.seen) ∧
  (∀ rid, rid ∈ st'.seen ↔ (rid ∈ st.seen ∨ rid ∈ srcIds (toksL δ))) ∧
  (srcIds (toksL δ)).Nodup ∧
  st'.counts.map Prod.fst = st.counts.map Prod.fst ++ srcIds (toksL δ) ∧
  refsOk st.seen (toksL δ) = true

/-- The number of heap ids not yet visited: the measure showing every
walk needs only finitely much fuel. -/
def unvisited (heap : Heap) (st : WalkSt) : Nat :=
  ((heap.map Prod.fst).toFinset \ st.seen.toFinset).card

/-! ## Concrete inputs used by the claims -/

/-- `{a: 1}`. -/
def heapA1 : Heap := [(0, [("a", .val (.jsNum 1))])]

/-- `{a: {x: 1}, b: {y: 2}, c: {z: 3}}`. -/
def heapWide : Heap :=
  [(0, [("a", .val (.jsObj 1)), ("b", .val (.jsObj 2)), ("c", .val (.jsObj 3))]),
   (1, [("x", .val (.jsNum 1))]),
   (2, [("y", .val (.jsNum 2))]),
   (3, [("z", .val (.jsNum 3))])]

/-- `{a: {b: {c: 1}}}`. -/
def heapNested : Heap :=
  [(0, [("a", .val (.jsObj 1))]),
   (1, [("b", .val (.jsObj 2))]),
   (2, [("c", .val (.jsNum 1))])]

/-- A self-referential object `x = {a: x}`. -/
def heapSelf : Heap := [(0, [("a", .val (.jsObj 0))])]

/-- A mutual-reference cycle `x = {b: y}`, `y = {a: x}`. -/
def heapMutual : Heap :=
  [(0, [("b", .val (.jsObj 1))]),
   (1, [("a", .val (.jsObj 0))])]

/-- `{w: A, x: B, y: B, z: A}` with `A = {}` (id 1) and `B = {}` (id 2):
`B` is re-encountered (at `y`) before `A` is (at `z`). -/
def heapTwoRefs : Heap :=
  [(0, [("w", .val (.jsObj 1)), ("x", .val (.jsObj 2)),
        ("y", .val (.jsObj 2)), ("z", .val (.jsObj 1))]),
   (1, []),
   (2, [])]

/-- `{a: <throwing getter>, b: 1}` with error name `Boom` and message
`hidden`. -/
def heapGetterMsg : Heap :=
  [(0, [("a", .getterThrow "Boom" "hidden"), ("b", .val (.jsNum 1))])]

/-- `{a: <throwing getter>, b: 1}` with an empty error message. -/
def heapGetterNoMsg : Heap :=
  [(0, [("a", .getterThrow "Boom" ""), ("b", .val (.jsNum 1))])]

/-- The configuration produced by `new Formatter({limitDepth: 1})`. -/
def limit1Config : Config :=
  { indent := "  ", depth := 0, limitDepth := some 1, maxComplexity := none,
    style := fun _ => ("", "") }

/-- The claim that reference numbers are assigned, session-globally
increasing, at the moment of each repeated identity's second encounter —
i.e. that visible numbers are ordered by second-encounter order. -/
def secondEncounterNumbering (heap : Heap) (cfg : Config) (fuel : Nat)
    (v : JsVal) : Prop :=
  ∀ st res rs, formatSession heap cfg fuel v = some (st, (res, rs)) →
    ∀ i j, i ∈ distinctInOrder [] st.reenc → j ∈ distinctInOrder [] st.reenc →
      posIn (distinctInOrder [] st.reenc) i < posIn (distinctInOrder [] st.reenc) j →
      lookupD rs.numbers i < lookupD rs.numbers j

/-- The final walk state of formatting the self-referential `x = {a: x}`
(computed; used to instantiate the hypothesis-bearing claims). -/
def stSelfFinal : WalkSt :=
  { cur := [.source 0,
      .buf [.str "\x7b", .softBreak " " 1, .str "a", .str ": ", .backref 0,
            .softBreak " " 0, .str "\x7d"]],
    depth := 0, seen := [0], counts := [(0, 1)], reenc := [0] }
mutual

theorem processFragment_cpx (counts : List (Nat × Nat)) (opts : FlushOptions)
    (f : Frag) (rs : RefSt) :
    (processFragment counts opts f rs).2.1 = nestedCpxF f := by
  match f with
  | .str s => simp [processFragment, nestedCpxF]
  | .hardBreak i => simp [processFragment, nestedCpxF]
  | .softBreak t i => simp [processFragment, nestedCpxF]
  | .styled tag value =>
      simp [processFragment, nestedCpxF, processFragList_cpx counts opts value rs]
  | .buf fragments =>
      simp [processFragment, flush, nestedCpxF,
        processFragList_cpx counts { opts with depth := opts.depth + 1 } fragments rs]
  | .thunk fs => simp [processFragment, nestedCpxF, processFragList_cpx counts opts fs rs]
  | .source rid =>
      by_cases h : lookupD counts rid = 0 <;> simp [processFragment, nestedCpxF, h]
  | .backref rid => simp [processFragment, nestedCpxF]

theorem processFragList_cpx (counts : List (Nat × Nat)) (opts : FlushOptions)
    (fs : List Frag) (rs : RefSt) :
    (processFragList counts opts fs rs).2.1 = nestedCpxL fs := by
  match fs with
  | [] => simp [processFragList, nestedCpxL]
  | f :: rest =>
      simp [processFragList, nestedCpxL, processFragment_cpx counts opts f rs,
        processFragList_cpx counts opts rest (processFragment counts opts f rs).2.2.2]

end

mutual

theorem processFragment_ml (counts : List (Nat × Nat)) (opts : FlushOptions)
    (f : Frag) (rs : RefSt) :
    (processFragment counts opts f rs).2.2.1 = mlF opts.maxComplexity f := by
  match f with
  | .str s => simp [processFragment, mlF]
  | .hardBreak i => simp [processFragment, mlF]
  | .softBreak t i => simp [processFragment, mlF]
  | .styled tag value =>
      simp [processFragment, mlF, processFragList_ml counts opts value rs]
  | .buf fragments =>
      simp [processFragment, flush, mlF,
        processFragList_ml counts { opts with depth := opts.depth + 1 } fragments rs,
        processFragList_cpx counts { opts with depth := opts.depth + 1 } fragments rs, thr]
  | .thunk fs => simp [processFragment, mlF, processFragList_ml counts opts fs rs]
  | .source rid =>
      by_cases h : lookupD counts rid = 0 <;> simp [processFragment, mlF, h]
  | .backref rid => simp [processFragment, mlF]

theorem processFragList_ml (counts : List (Nat × Nat)) (opts : FlushOptions)
    (fs : List Frag) (rs : RefSt) :
    (processFragList counts opts fs rs).2.2.1 = mlL opts.maxComplexity fs := by
  match fs with
  | [] => simp [processFragList, mlL]
  | f :: rest =>
      simp [processFragList, mlL, processFragment_ml counts opts f rs,
        processFragList_ml counts opts rest (processFragment counts opts f rs).2.2.2]

end

theorem thr_mono (mco : Option Nat) {c c' : Nat} (h : c ≤ c')
    (ht : thr mco c = true) : thr mco c' = true := by
  unfold thr at *
  match hmc : mco with
  | some mc => simp at ht ⊢; omega
  | none => simp at ht

mutual

theorem hb_imp_mlF (mco : Option Nat) (f : Frag)
    (h : hasHardBreakF f = true) : mlF mco f = true := by
  match f with
  | .hardBreak i => simp [mlF]
  | .str s | .softBreak t i | .source r | .backref r => simp [hasHardBreakF] at h
  | .styled tag value => simp_all [hasHardBreakF, mlF, hb_imp_mlL mco value h]
  | .thunk fs => simp_all [hasHardBreakF, mlF, hb_imp_mlL mco fs h]
  | .buf fragments =>
      simp only [hasHardBreakF] at h
      simp [mlF, hb_imp_mlL mco fragments h]

theorem hb_imp_mlL (mco : Option Nat) (fs : List Frag)
    (h : hasHardBreakL fs = true) : mlL mco fs = true := by
  match fs with
  | [] => simp [hasHardBreakL] at h
  | f :: rest =>
      simp only [hasHardBreakL, Bool.or_eq_true] at h
      rcases h with h | h
      · simp [mlL, hb_imp_mlF mco f h]
      · simp [mlL, hb_imp_mlL mco rest h]

end

mutual

theorem mlF_imp (mco : Option Nat) (f : Frag) (h : mlF mco f = true) :
    hasHardBreakF f = true ∨ thr mco (nestedCpxF f) = true := by
  match f with
  | .hardBreak i => exact Or.inl rfl
  | .str s | .softBreak t i | .source r | .backref r => simp [mlF] at h
  | .styled tag value =>
      simpa [hasHardBreakF, nestedCpxF] using mlL_imp mco value (by simpa [mlF] using h)
  | .thunk fs =>
      simpa [hasHardBreakF, nestedCpxF] using mlL_imp mco fs (by simpa [mlF] using h)
  | .buf fragments =>
      simp only [mlF, Bool.or_eq_true] at h
      rcases h with h | h
      · rcases mlL_imp mco fragments h with h' | h'
        · exact Or.inl (by simpa [hasHardBreakF] using h')
        · exact Or.inr (thr_mono mco (by simp [nestedCpxF]) h')
      · exact Or.inr (thr_mono mco (by simp [nestedCpxF]) h)

theorem mlL_imp (mco : Option Nat) (fs : List Frag) (h : mlL mco fs = true) :
    hasHardBreakL fs = true ∨ thr mco (nestedCpxL fs) = true := by
  match fs with
  | [] => simp [mlL] at h
  | f :: rest =>
      simp only [mlL, Bool.or_eq_true] at h
      rcases h with h | h
      · rcases mlF_imp mco f h with h' | h'
        · exact Or.inl (by simp [hasHardBreakL, h'])
        · exact Or.inr (thr_mono mco (by simp [nestedCpxL]) h')
      · rcases mlL_imp mco rest h with h' | h'
        · exact Or.inl (by simp [hasHardBreakL, h'])
        · exact Or.inr (thr_mono mco (by simp [nestedCpxL]) h')

end

/-- The multiline decision of `flush` in closed form: a transitively
contained hard break, or a finite `maxComplexity` reached by the sum of the
nested buffers' complexities. -/
theorem flush_multiline (counts : List (Nat × Nat)) (opts : FlushOptions)
    (fs : List Frag) (rs : RefSt) :
    (flush counts opts fs rs).1.multiline =
      (hasHardBreakL fs || thr opts.maxComplexity (nestedCpxL fs)) := by
  have hml := processFragList_ml counts opts fs rs
  have hcpx := processFragList_cpx counts opts fs rs
  have hfl : (flush counts opts fs rs).1.multiline =
      (mlL opts.maxComplexity fs || thr opts.maxComplexity (nestedCpxL fs)) := by
    simp only [flush, thr]
    rw [hml, hcpx]
  rw [hfl]
  by_cases hhb : hasHardBreakL fs = true
  · simp [hhb, hb_imp_mlL opts.maxComplexity fs hhb]
  · by_cases hthr : thr opts.maxComplexity (nestedCpxL fs) = true
    · simp [hthr]
    · have hml0 : mlL opts.maxComplexity fs = false := by
        by_contra hc
        simp only [Bool.not_eq_false] at hc
        rcases mlL_imp opts.maxComplexity fs hc with h | h
        · exact hhb h
        · exact hthr h
      simp [hml0, Bool.not_eq_true] at hhb hthr
      simp [hml0, hhb, hthr]

/-- The complexity returned by `flush` is one plus the sum of the nested
buffers' complexities. -/
theorem flush_complexity (counts : List (Nat × Nat)) (opts : FlushOptions)
    (fs : List Frag) (rs : RefSt) :
    (flush counts opts fs rs).1.complexity = nestedCpxL fs + 1 := by
  simp [flush, processFragList_cpx counts opts fs rs]

/-! The sum of the complexities of directly nested buffers, in the form
used by the complexity claim. -/

mutual

theorem nestedCpxF_as_sum (f : Frag) :
    nestedCpxF f = ((directBufsF f).map (fun g => nestedCpxL g + 1)).sum := by
  match f with
  | .str s | .hardBreak i | .softBreak t i | .source r | .backref r =>
      simp [nestedCpxF, directBufsF]
  | .styled tag value => simp [nestedCpxF, directBufsF, nestedCpxL_as_sum value]
  | .buf fragments => simp [nestedCpxF, directBufsF]
  | .thunk fs => simp [nestedCpxF, directBufsF, nestedCpxL_as_sum fs]

theorem nestedCpxL_as_sum (fs : List Frag) :
    nestedCpxL fs = ((directBufsL fs).map (fun g => nestedCpxL g + 1)).sum := by
  match fs with
  | [] => simp [nestedCpxL, directBufsL]
  | f :: rest =>
      simp [nestedCpxL, directBufsL, nestedCpxF_as_sum f, nestedCpxL_as_sum rest]

end


-- quick sanity examples (removed semantics checks happen in the theorems)
example :
    (flush [] ⟨0, "  ", none, fun _ => ("", "")⟩
      [.str "a", .buf [.hardBreak 1]] ⟨0, []⟩).1.multiline = true := by
  simp [flush, processFragList, processFragment, renderPieces]

example :
    (flush [(7, 1)] ⟨0, "  ", none, fun _ => ("", "")⟩
      [.source 7, .str "x", .backref 7] ⟨0, []⟩).1.value = "#0 = x#0#" := by
  simp [flush, processFragList, processFragment, renderPieces, lookupD]
  rfl


-- sanity: a flat object with one field, default options
example :
    formatWith [(0, [("a", .val (.jsNum 1))])] defaultConfig 100 (.jsObj 0) =
      some "{ a: 1 }" := by
  simp [formatWith, formatV, formatObjectV, formatFieldsV, formatFieldV, initSt,
    defaultConfig, lookupObj, sortFields, insertField, writeItemPre, writeKey,
    writeString, writeFrag, writeChars, isIdentifier, isIdentStart, isIdentCont,
    flush, processFragList, processFragment, renderPieces, lookupD, escape,
    escapeChar]
  rfl

theorem filter_not_isEmpty_eq_all (l : List (String × OptVal)) :
    (l.filter (fun p => !(recognizedOptions.contains p.1))).isEmpty =
      l.all (fun p => recognizedOptions.contains p.1) := by
  induction l with
  | nil => rfl
  | cons p rest ih =>
      cases hc : recognizedOptions.contains p.1 <;>
        simp_all [List.filter_cons, List.all_cons]

/-- C8: the `Formatter` constructor succeeds exactly when every supplied
option key is recognized; any unrecognized key makes it throw
immediately, before any formatting happens (formatting only ever runs on
a successfully constructed configuration). -/
theorem c8_invalid_options_raise (opts : List (String × OptVal)) :
    isOkE (mkFormatter opts) = opts.all (fun p => recognizedOptions.contains p.1) := by
  rw [← filter_not_isEmpty_eq_all]
  unfold mkFormatter isOkE
  cases hc : (opts.filter (fun p => !(recognizedOptions.contains p.1))).isEmpty <;>
    simp only [hc, if_true, if_false, Bool.false_eq_true, reduceIte]

/-- C2: the code stores `limitDepth` but never consults it — with
`limitDepth: 1`, `{a: {b: {c: 1}}}` is still formatted in full, with no
elision placeholder at any depth, contradicting the option's documented
meaning. -/
theorem c2_limit_depth_unenforced_eval :
    mkFormatter [("limitDepth", OptVal.nat 1)] = .ok limit1Config ∧
    formatWith heapNested limit1Config 100 (.jsObj 0) =
      some "{ a: { b: { c: 1 } } }" := by
  constructor
  · rfl
  · simp [formatWith, formatV, formatObjectV, formatFieldsV, formatFieldV, initSt,
      limit1Config, heapNested, lookupObj, sortFields, insertField, charsLe,
      writeItemPre, writeKey, writeString, writeFrag, writeChars, isIdentifier,
      isIdentStart, isIdentCont, escape, escapeChar, hintContent, bumpCount,
      flush, processFragList, processFragment, renderPieces, repeatStr, lookupD]
    rfl

/-- C3: the multiline flag of `flush` is true exactly when a hard break
occurs in the transitively flushed content or a finite `maxComplexity` is
reached by the nested-buffer complexity sum; concretely, `{a: 1}` with
`pretty: true` stays on one line while three nested composites (sum 3 ≥ 3)
switch to indented multi-line layout. -/
theorem c3_multiline_iff_and_layout :
    (∀ (counts : List (Nat × Nat)) (opts : FlushOptions) (fs : List Frag) (rs : RefSt),
      (flush counts opts fs rs).1.multiline =
        (hasHardBreakL fs || thr opts.maxComplexity (nestedCpxL fs))) ∧
    formatWith heapA1 prettyConfig 100 (.jsObj 0) = some "{ a: 1 }" ∧
    formatWith heapWide prettyConfig 100 (.jsObj 0) =
      some "\x7b\n  a: \x7b x: 1 \x7d,\n  b: \x7b y: 2 \x7d,\n  c: \x7b z: 3 \x7d\n\x7d" := by
  refine ⟨flush_multiline, ?_, ?_⟩
  · simp [formatWith, formatV, formatObjectV, formatFieldsV, formatFieldV, initSt,
      prettyConfig, heapA1, lookupObj, sortFields, insertField, charsLe,
      writeItemPre, writeKey, writeString, writeFrag, writeChars, isIdentifier,
      isIdentStart, isIdentCont, escape, escapeChar, hintContent, bumpCount,
      flush, processFragList, processFragment, renderPieces, repeatStr, lookupD]
    rfl
  · simp [formatWith, formatV, formatObjectV, formatFieldsV, formatFieldV, initSt,
      prettyConfig, heapWide, lookupObj, sortFields, insertField, charsLe,
      writeItemPre, writeKey, writeString, writeFrag, writeChars, isIdentifier,
      isIdentStart, isIdentCont, escape, escapeChar, hintContent, bumpCount,
      flush, processFragList, processFragment, renderPieces, repeatStr, lookupD]
    rfl

/-- C4: the complexity returned by `flush` is one plus the sum of the
complexities returned by recursively flushing the directly nested buffers
(reached through fragment arrays, thunks and styled spans); with no
nested buffer it is exactly 1. -/
theorem c4_complexity_sum (counts : List (Nat × Nat)) (opts : FlushOptions)
    (fs : List Frag) (rs : RefSt) :
    (flush counts opts fs rs).1.complexity =
      1 + ((directBufsL fs).map (fun g =>
        (flush counts { opts with depth := opts.depth + 1 } g rs).1.complexity)).sum ∧
    (directBufsL fs = [] → (flush counts opts fs rs).1.complexity = 1) := by
  have hmap : ((directBufsL fs).map (fun g =>
      (flush counts { opts with depth := opts.depth + 1 } g rs).1.complexity)) =
      ((directBufsL fs).map (fun g => nestedCpxL g + 1)) := by
    apply List.map_congr_left
    intro g _
    exact flush_complexity counts { opts with depth := opts.depth + 1 } g rs
  constructor
  · rw [flush_complexity counts opts fs rs, hmap, ← nestedCpxL_as_sum fs]
    omega
  · intro h
    rw [flush_complexity counts opts fs rs, nestedCpxL_as_sum fs, h]
    rfl

theorem c4_complexity_sum_witness :
    (flush [] ⟨0, "  ", none, fun _ => ("", "")⟩ [.str "x"] ⟨0, []⟩).1.complexity =
      1 + ((directBufsL [.str "x"]).map (fun g =>
        (flush [] ⟨1, "  ", none, fun _ => ("", "")⟩ g ⟨0, []⟩).1.complexity)).sum ∧
    (flush [] ⟨0, "  ", none, fun _ => ("", "")⟩ [.str "x"] ⟨0, []⟩).1.complexity = 1 := by
  have h := c4_complexity_sum [] ⟨0, "  ", none, fun _ => ("", "")⟩ [.str "x"] ⟨0, []⟩
  exact ⟨h.1, h.2 (by simp [directBufsL, directBufsF])⟩

/-- C6: `_write` keeps the scanned newline inside the pushed text and
additionally pushes a hard break, so flushing renders an embedded break
as the original newline followed by the break's newline — two newlines —
instead of a single newline plus indentation: `write("a\nb")` produces
`"a\n\nb"`. -/
theorem c6_embedded_newline_eval :
    writeChars 0 [] ("a\nb").data = [.str "a\n", .hardBreak 0, .str "b"] ∧
    writeTop defaultConfig "a\nb" = "a\n\nb" := by
  constructor
  · rfl
  · simp [writeTop, writeString, writeChars, initSt, defaultConfig, flush,
      processFragList, processFragment, renderPieces, repeatStr, lookupD]
    rfl

/-- C7: a throwing getter is caught per field — formatting always
completes for such a field (any positive fuel), the field is rendered as
the inline hint `<name> when accessing field[: <message>]` with the
message part only when non-empty, and the remaining sibling fields are
still formatted. -/
theorem c7_field_error_isolated :
    (∀ (heap : Heap) (fuel : Nat) (key name msg : String) (hasE : Bool) (st : WalkSt),
      (formatFieldV heap (fuel + 1) key (.getterThrow name msg) hasE st).isSome = true) ∧
    formatWith heapGetterMsg defaultConfig 100 (.jsObj 0) =
      some "{ a: Boom when accessing field: hidden, b: 1 }" ∧
    formatWith heapGetterNoMsg defaultConfig 100 (.jsObj 0) =
      some "{ a: Boom when accessing field, b: 1 }" := by
  refine ⟨fun heap fuel key name msg hasE st => by simp [formatFieldV], ?_, ?_⟩
  · simp [formatWith, formatV, formatObjectV, formatFieldsV, formatFieldV, initSt,
      defaultConfig, heapGetterMsg, lookupObj, sortFields, insertField, charsLe,
      writeItemPre, writeKey, writeString, writeFrag, writeChars, isIdentifier,
      isIdentStart, isIdentCont, escape, escapeChar, hintContent, bumpCount,
      flush, processFragList, processFragment, renderPieces, repeatStr, lookupD]
    rfl
  · simp [formatWith, formatV, formatObjectV, formatFieldsV, formatFieldV, initSt,
      defaultConfig, heapGetterNoMsg, lookupObj, sortFields, insertField, charsLe,
      writeItemPre, writeKey, writeString, writeFrag, writeChars, isIdentifier,
      isIdentStart, isIdentCont, escape, escapeChar, hintContent, bumpCount,
      flush, processFragList, processFragment, renderPieces, repeatStr, lookupD]
    rfl

theorem escapeChar_of_not_ctl (c : Char) (h : isCtlChar c = false) :
    escapeChar c = [c] := by
  simp only [isCtlChar, Bool.or_eq_false_iff, decide_eq_false_iff_not] at h
  obtain ⟨⟨⟨⟨⟨⟨h0, hn⟩, hr⟩, hv⟩, ht⟩, hb⟩, hf⟩ := h
  simp [escapeChar, h0, hn, hr, hv, ht, hb, hf]

theorem escapeChar_repl (t : Char)
    (ht : t ∉ ['\\', '0', 'n', 'r', 'v', 't', 'b', 'f']) (c : Char) :
    ((escapeChar c).map (fun d => if d = t then ['\\', t] else [d])).flatten =
      (if isCtlChar c then escapeChar c else if c = t then ['\\', t] else [c]) := by
  simp only [List.mem_cons, List.not_mem_nil, or_false, not_or] at ht
  obtain ⟨hs, h0, hn, hr, hv, htt, hb, hf⟩ := ht
  by_cases hc : isCtlChar c = true
  · simp only [isCtlChar, Bool.or_eq_true, decide_eq_true_eq] at hc
    have hs' : ¬ ('\\' = t) := fun he => hs he.symm
    have h0' : ¬ ('0' = t) := fun he => h0 he.symm
    have hn' : ¬ ('n' = t) := fun he => hn he.symm
    have hr' : ¬ ('r' = t) := fun he => hr he.symm
    have hv' : ¬ ('v' = t) := fun he => hv he.symm
    have htt' : ¬ ('t' = t) := fun he => htt he.symm
    have hb' : ¬ ('b' = t) := fun he => hb he.symm
    have hf' : ¬ ('f' = t) := fun he => hf he.symm
    rcases hc with ((((((h | h) | h) | h) | h) | h) | h) <;> subst h <;>
      simp [escapeChar, isCtlChar, hs', h0', hn', hr', hv', htt', hb', hf']
  · have hc' : isCtlChar c = false := by simpa using hc
    rw [escapeChar_of_not_ctl c hc']
    by_cases hct : c = t
    · subst hct
      simp [hc']
    · simp [hc', hct]

/-- C9: escaping rewrites every character in one charwise pass — each of
the seven control characters becomes its two-character escape and every
occurrence of the terminator gains a leading backslash (for any
terminator that is not itself an output character of the control
escapes); `format(42)` renders `42` and `format("a\"b")` renders
`"a\"b"` with the inner quote escaped. -/
theorem c9_escaping :
    (∀ (s : String) (t : Char), t ∉ ['\\', '0', 'n', 'r', 'v', 't', 'b', 'f'] →
      escape s (some t) = String.mk ((s.data.map (fun c =>
        if isCtlChar c then escapeChar c
        else if c = t then ['\\', t] else [c])).flatten)) ∧
    formatWith [] defaultConfig 100 (.jsNum 42) = some "42" ∧
    formatWith [] defaultConfig 100 (.jsStr "a\"b") = some "\"a\\\"b\"" := by
  refine ⟨fun s t ht => ?_, ?_, ?_⟩
  · unfold escape
    simp only []
    congr 1
    induction s.data with
    | nil => rfl
    | cons c rest ih =>
        simp only [List.map_cons, List.flatten_cons, List.map_append,
          List.flatten_append, ih, escapeChar_repl t ht c]
  · simp [formatWith, formatV, initSt, defaultConfig, writeFrag, flush,
      processFragList, processFragment, renderPieces, lookupD]
    rfl
  · simp [formatWith, formatV, initSt, defaultConfig, writeFrag, escape,
      escapeChar, flush, processFragList, processFragment, renderPieces, lookupD]

theorem c9_escaping_witness :
    ('"' ∉ ['\\', '0', 'n', 'r', 'v', 't', 'b', 'f']) ∧
    escape "x\n\"y" (some '"') = String.mk ((("x\n\"y").data.map (fun c =>
      if isCtlChar c then escapeChar c
      else if c = '"' then ['\\', '"'] else [c])).flatten) :=
  ⟨by decide, c9_escaping.1 "x\n\"y" '"' (by decide)⟩

/-- C10: when `pretty` is false or omitted the constructor stores an
infinite complexity threshold (ignoring any supplied `maxComplexity`),
and with an infinite threshold the multiline decision of `flush` is
driven by hard breaks alone. -/
theorem c10_maxComplexity_requires_pretty
    (opts : List (String × OptVal)) (cfg : Config)
    (hpretty : findOpt opts "pretty" = none ∨
      findOpt opts "pretty" = some (.bool false))
    (hok : mkFormatter opts = .ok cfg) :
    cfg.maxComplexity = none ∧
    ∀ (counts : List (Nat × Nat)) (fs : List Frag) (rs : RefSt),
      (flush counts ⟨cfg.depth, cfg.indent, cfg.maxComplexity, cfg.style⟩
        fs rs).1.multiline = hasHardBreakL fs := by
  have hmc : cfg.maxComplexity = none := by
    unfold mkFormatter at hok
    cases hre : (opts.filter (fun p => !(recognizedOptions.contains p.1))).isEmpty
    · simp only [hre, Bool.false_eq_true, reduceIte] at hok
      simp at hok
    · simp only [hre, reduceIte, Except.ok.injEq] at hok
      have hb : getBoolOpt opts "pretty" false = false := by
        unfold getBoolOpt
        rcases hpretty with h | h <;> rw [h]
      rw [← hok]
      simp [hb]
  refine ⟨hmc, fun counts fs rs => ?_⟩
  rw [flush_multiline]
  simp [hmc, thr]

theorem c10_maxComplexity_requires_pretty_witness :
    defaultConfig.maxComplexity = none ∧
    ∀ (counts : List (Nat × Nat)) (fs : List Frag) (rs : RefSt),
      (flush counts ⟨defaultConfig.depth, defaultConfig.indent,
        defaultConfig.maxComplexity, defaultConfig.style⟩ fs rs).1.multiline =
        hasHardBreakL fs :=
  c10_maxComplexity_requires_pretty [("maxComplexity", OptVal.nat 1)]
    defaultConfig (Or.inl rfl) rfl

/-- C5 counterexample: in `{w: A, x: B, y: B, z: A}` the identity `B` is
re-encountered (at `y`) before `A` is (at `z`), yet `B` receives the
larger number — numbers are assigned when source markers are resolved, in
first-visit order, not at the moment of the second encounter. -/
theorem c5_counterexample_second_encounter_order :
    ¬ secondEncounterNumbering heapTwoRefs defaultConfig 100 (.jsObj 0) := by
  intro h
  have heval : (formatSession heapTwoRefs defaultConfig 100 (.jsObj 0)).map
      (fun r => (r.1.reenc, r.2.2.numbers)) = some ([2, 1], [(1, 0), (2, 1)]) := by
    simp [formatSession, formatV, formatObjectV, formatFieldsV, formatFieldV, initSt,
      defaultConfig, heapTwoRefs, lookupObj, sortFields, insertField, charsLe,
      writeItemPre, writeKey, writeString, writeFrag, writeChars, isIdentifier,
      isIdentStart, isIdentCont, escape, escapeChar, hintContent, bumpCount,
      flush, processFragList, processFragment, renderPieces, repeatStr, lookupD]
  cases hfs : formatSession heapTwoRefs defaultConfig 100 (.jsObj 0) with
  | none => rw [hfs] at heval; simp at heval
  | some r =>
      rw [hfs] at heval
      simp only [Option.map_some', Option.some.injEq, Prod.mk.injEq] at heval
      obtain ⟨hre, hnum⟩ := heval
      have hlt := h r.1 r.2.1 r.2.2 (by rw [hfs]) 2 1
        (by simp [hre, distinctInOrder]) (by simp [hre, distinctInOrder])
        (by simp [hre, distinctInOrder, posIn])
      rw [hnum] at hlt
      simp [lookupD] at hlt

/-! ## Token-level lemmas -/

theorem toksL_append (a b : List Frag) : toksL (a ++ b) = toksL a ++ toksL b := by
  induction a with
  | nil => simp [toksL]
  | cons f rest ih => simp [toksL, ih]

theorem toks_writeChars (d : Nat) (pre : List Char) (cs : List Char) :
    toksL (writeChars d pre cs) = [] := by
  induction cs generalizing pre with
  | nil => simp [writeChars, toksL, toksF]
  | cons c rest ih =>
      by_cases hc : c = '\n'
      · by_cases hr : rest.isEmpty <;>
          simp [writeChars, hc, hr, toksL, toksF, ih]
      · simp [writeChars, hc, ih]

theorem toks_hintContent (name msg : String) : toksL (hintContent name msg) = [] := by
  by_cases h : msg = "" <;> simp [hintContent, h, toksL, toksF]

theorem srcIds_append (a b : List Tok) : srcIds (a ++ b) = srcIds a ++ srcIds b := by
  simp [srcIds]

theorem seenAfter_mem (seen : List Nat) (ts : List Tok) (x : Nat) :
    x ∈ seenAfter seen ts ↔ x ∈ seen ∨ x ∈ srcIds ts := by
  induction ts generalizing seen with
  | nil => simp [seenAfter, srcIds]
  | cons t rest ih =>
      cases t with
      | src rid =>
          simp only [seenAfter, ih, srcIds, List.filterMap_cons, List.mem_cons]
          tauto
      | ref rid => simp only [seenAfter, ih, srcIds, List.filterMap_cons]

theorem refsOk_congr (s₁ s₂ : List Nat) (ts : List Tok)
    (h : ∀ x, x ∈ s₁ ↔ x ∈ s₂) : refsOk s₁ ts = refsOk s₂ ts := by
  induction ts generalizing s₁ s₂ with
  | nil => rfl
  | cons t rest ih =>
      cases t with
      | src rid =>
          simp only [refsOk]
          exact ih (rid :: s₁) (rid :: s₂) (by intro x; simp [h x])
      | ref rid =>
          simp only [refsOk]
          have hc : s₁.contains rid = s₂.contains rid := by
            by_cases hm : rid ∈ s₁
            · have hm2 : rid ∈ s₂ := (h rid).mp hm
              simp [hm, hm2]
            · have hm2 : rid ∉ s₂ := fun k => hm ((h rid).mpr k)
              simp [hm, hm2]
          rw [hc, ih s₁ s₂ h]

theorem refsOk_append (seen : List Nat) (a b : List Tok) :
    refsOk seen (a ++ b) = (refsOk seen a && refsOk (seenAfter seen a) b) := by
  induction a generalizing seen with
  | nil => simp [refsOk, seenAfter]
  | cons t rest ih =>
      cases t with
      | src rid => simp [refsOk, seenAfter, ih]
      | ref rid =>
          simp only [List.cons_append, refsOk, seenAfter, ih]
          cases seen.contains rid <;> simp [ih]

theorem count_src_eq (ts : List Tok) (rid : Nat) :
    ts.count (.src rid) = (srcIds ts).count rid := by
  induction ts with
  | nil => simp [srcIds]
  | cons t rest ih =>
      cases t with
      | src r =>
          by_cases h : r = rid <;>
            simp [srcIds, List.count_cons, h, ih, Tok.src.injEq]
      | ref r => simp [srcIds, List.count_cons, ih]

theorem bumpCount_keys (l : List (Nat × Nat)) (id : Nat) :
    (bumpCount l id).map Prod.fst = l.map Prod.fst := by
  induction l with
  | nil => rfl
  | cons p rest ih =>
      obtain ⟨k, n⟩ := p
      by_cases h : k = id <;> simp [bumpCount, h, ih]

/-! ## Walk-step invariant lemmas -/

theorem WalkDelta_nil (st : WalkSt) : WalkDelta st st [] := by
  refine ⟨by simp, by simp [toksL, srcIds], ?_, by simp [toksL, srcIds], by simp [toksL, srcIds], by simp [toksL, refsOk]⟩
  intro rid
  simp [toksL, srcIds]

theorem WalkDelta_writeFrag (st : WalkSt) (f : Frag) (h : toksF f = []) :
    WalkDelta st (writeFrag st f) [f] := by
  have ht : toksL [f] = [] := by simp [toksL, h]
  refine ⟨rfl, ?_, ?_, ?_, ?_, ?_⟩ <;> simp [writeFrag, ht, srcIds, refsOk]

theorem WalkDelta_writeString (st : WalkSt) (s : String) :
    WalkDelta st (writeString st s) (writeChars st.depth [] s.data) := by
  have ht : toksL (writeChars st.depth [] s.data) = [] := toks_writeChars _ _ _
  refine ⟨rfl, ?_, ?_, ?_, ?_, ?_⟩ <;> simp [writeString, ht, srcIds, refsOk]

theorem WalkDelta_comp {st₁ st₂ st₃ : WalkSt} {δ₁ δ₂ : List Frag}
    (h₁ : WalkDelta st₁ st₂ δ₁) (h₂ : WalkDelta st₂ st₃ δ₂) :
    WalkDelta st₁ st₃ (δ₁ ++ δ₂) := by
  obtain ⟨c₁, f₁, s₁, n₁, k₁, r₁⟩ := h₁
  obtain ⟨c₂, f₂, s₂, n₂, k₂, r₂⟩ := h₂
  have htl : toksL (δ₁ ++ δ₂) = toksL δ₁ ++ toksL δ₂ := toksL_append δ₁ δ₂
  have hsrc : srcIds (toksL (δ₁ ++ δ₂)) = srcIds (toksL δ₁) ++ srcIds (toksL δ₂) := by
    rw [htl, srcIds_append]
  have hsub1 : ∀ x, x ∈ srcIds (toksL δ₁) → x ∈ st₂.seen := by
    intro x hx
    exact (s₁ x).mpr (Or.inr hx)
  refine ⟨?_, ?_, ?_, ?_, ?_, ?_⟩
  · rw [c₂, c₁, List.append_assoc]
  · intro rid hr
    rw [hsrc] at hr
    rcases List.mem_append.mp hr with h | h
    · exact f₁ rid h
    · intro hmem
      exact f₂ rid h ((s₁ rid).mpr (Or.inl hmem))
  · intro rid
    rw [hsrc]
    rw [s₂ rid]
    rw [s₁ rid]
    simp [List.mem_append]
    tauto
  · rw [hsrc]
    refine List.Nodup.append n₁ n₂ ?_
    intro x hx1 hx2
    exact f₂ x hx2 (hsub1 x hx1)
  · rw [hsrc, k₂, k₁, List.append_assoc]
  · rw [htl, refsOk_append, r₁, Bool.true_and]
    rw [refsOk_congr (seenAfter st₁.seen (toksL δ₁)) st₂.seen _ ?_]
    · exact r₂
    · intro x
      rw [seenAfter_mem, s₁ x]

theorem WalkDelta_registerSource (st : WalkSt) (id : Nat)
    (h : st.seen.contains id = false) :
    WalkDelta st
      (writeFrag { st with seen := id :: st.seen, counts := st.counts ++ [(id, 0)] }
        (.source id)) [.source id] := by
  have hid : id ∉ st.seen := by simpa using h
  refine ⟨rfl, ?_, ?_, ?_, ?_, ?_⟩
  · intro rid hr
    simp only [toksL, toksF, List.append_nil, srcIds, List.filterMap_cons,
      List.filterMap_nil, List.mem_singleton] at hr
    subst hr
    exact hid
  · intro rid
    simp only [writeFrag, toksL, toksF, srcIds, List.append_nil,
      List.filterMap_cons, List.filterMap_nil, List.mem_singleton, List.mem_cons]
    tauto
  · simp [toksL, toksF, srcIds]
  · simp [writeFrag, toksL, toksF, srcIds]
  · simp [toksL, toksF, srcIds, refsOk]

theorem WalkDelta_backref (st : WalkSt) (id : Nat)
    (h : st.seen.contains id = true) :
    WalkDelta st
      (writeFrag { st with counts := bumpCount st.counts id, reenc := st.reenc ++ [id] }
        (.backref id)) [.backref id] := by
  refine ⟨rfl, ?_, ?_, ?_, ?_, ?_⟩
  · intro rid hr
    simp [toksL, toksF, srcIds] at hr
  · intro rid
    simp [writeFrag, toksL, toksF, srcIds]
  · simp [toksL, toksF, srcIds]
  · simp [writeFrag, toksL, toksF, srcIds, bumpCount_keys]
  · have hm : id ∈ st.seen := by simpa using h
    simp [toksL, toksF, refsOk, hm]

theorem WalkDelta_wrap {stA stB : WalkSt} {δf : List Frag} (st st' : WalkSt)
    (C : List Frag) (wd : WalkDelta stA stB δf)
    (hcur : st'.cur = st.cur ++ [Frag.buf C])
    (htoks : toksL C = toksL δf)
    (hseenA : stA.seen = st.seen) (hcountsA : stA.counts = st.counts)
    (hseenB : st'.seen = stB.seen) (hcountsB : st'.counts = stB.counts) :
    WalkDelta st st' [Frag.buf C] := by
  obtain ⟨cf, ff, sf, nf, kf, rf⟩ := wd
  have ht : toksL [Frag.buf C] = toksL δf := by simp [toksL, toksF, htoks]
  refine ⟨hcur, ?_, ?_, ?_, ?_, ?_⟩
  · rw [ht]
    intro rid hr
    rw [← hseenA]
    exact ff rid hr
  · intro rid
    rw [ht, hseenB, sf rid, hseenA]
  · rw [ht]
    exact nf
  · rw [ht, hcountsB, kf, hcountsA]
  · rw [ht, ← hseenA]
    exact rf

theorem exDelta_comp {st₁ st₂ st₃ : WalkSt}
    (h₁ : ∃ δ, WalkDelta st₁ st₂ δ) (h₂ : ∃ δ, WalkDelta st₂ st₃ δ) :
    ∃ δ, WalkDelta st₁ st₃ δ := by
  obtain ⟨δ₁, w₁⟩ := h₁
  obtain ⟨δ₂, w₂⟩ := h₂
  exact ⟨δ₁ ++ δ₂, WalkDelta_comp w₁ w₂⟩

theorem exDelta_writeString (st : WalkSt) (s : String) :
    ∃ δ, WalkDelta st (writeString st s) δ :=
  ⟨_, WalkDelta_writeString st s⟩

theorem exDelta_writeItemPre (hasE : Bool) (st : WalkSt) :
    ∃ δ, WalkDelta st (writeItemPre hasE st) δ := by
  unfold writeItemPre
  cases hasE
  · simp only [Bool.false_eq_true, reduceIte]
    exact ⟨_, WalkDelta_writeFrag st _ (by simp [toksF])⟩
  · simp only [reduceIte]
    exact exDelta_comp (exDelta_writeString st ",")
      ⟨_, WalkDelta_writeFrag _ _ (by simp [toksF])⟩

theorem exDelta_writeKey (key : String) (st : WalkSt) :
    ∃ δ, WalkDelta st (writeKey key st) δ := by
  unfold writeKey
  cases hik : isIdentifier key
  · simp only [Bool.false_eq_true, reduceIte]
    exact ⟨_, WalkDelta_writeFrag st _ (by simp [toksF, toksL])⟩
  · simp only [reduceIte]
    exact exDelta_writeString st key

mutual

theorem formatV_delta (heap : Heap) (fuel : Nat) (v : JsVal) (st st' : WalkSt)
    (h : formatV heap fuel v st = some st') : ∃ δ, WalkDelta st st' δ := by
  match fuel with
  | 0 => simp [formatV] at h
  | fuel + 1 =>
    cases v with
    | jsNull =>
        simp only [formatV, Option.some.injEq] at h
        subst h
        exact ⟨_, WalkDelta_writeFrag st _ (by simp [toksF, toksL])⟩
    | jsStr s =>
        simp only [formatV, Option.some.injEq] at h
        subst h
        exact ⟨_, WalkDelta_writeFrag st _ (by simp [toksF, toksL])⟩
    | jsNum n =>
        simp only [formatV, Option.some.injEq] at h
        subst h
        exact ⟨_, WalkDelta_writeFrag st _ (by simp [toksF, toksL])⟩
    | jsBool b =>
        simp only [formatV, Option.some.injEq] at h
        subst h
        exact ⟨_, WalkDelta_writeFrag st _ (by simp [toksF, toksL])⟩
    | jsUndefined =>
        simp only [formatV, Option.some.injEq] at h
        subst h
        exact ⟨_, WalkDelta_writeFrag st _ (by simp [toksF, toksL])⟩
    | jsObj id =>
        simp only [formatV] at h
        cases hc : st.seen.contains id
        · rw [hc] at h
          simp only [Bool.false_eq_true, reduceIte] at h
          obtain ⟨δ₂, wd₂⟩ := formatObjectV_delta heap fuel id _ st' h
          exact ⟨[.source id] ++ δ₂,
            WalkDelta_comp (WalkDelta_registerSource st id hc) wd₂⟩
        · rw [hc] at h
          simp only [reduceIte, Option.some.injEq] at h
          subst h
          exact ⟨_, WalkDelta_backref st id hc⟩

theorem formatObjectV_delta (heap : Heap) (fuel : Nat) (id : Nat) (st st' : WalkSt)
    (h : formatObjectV heap fuel id st = some st') : ∃ δ, WalkDelta st st' δ := by
  match fuel with
  | 0 => simp [formatObjectV] at h
  | fuel + 1 =>
    simp only [formatObjectV] at h
    cases hff : formatFieldsV heap fuel (sortFields (lookupObj heap id)) false
        { writeString { st with cur := [] } "\x7b" with
          depth := (writeString { st with cur := [] } "\x7b").depth + 1 } with
    | none =>
        rw [hff] at h
        simp at h
    | some r =>
        obtain ⟨stB, hasE⟩ := r
        rw [hff] at h
        simp only [Option.some.injEq] at h
        obtain ⟨δf, wdf⟩ := formatFieldsV_delta heap fuel _ _ _ _ hff
        have hcurB := wdf.1
        dsimp only at hcurB
        rw [← h]
        cases hasE <;>
          exact ⟨_, WalkDelta_wrap st _ _ wdf rfl
            (by simp [writeString, writeFrag, toksL_append, toks_writeChars,
              hcurB, toksL, toksF])
            (by simp [writeString]) (by simp [writeString])
            (by simp [writeString, writeFrag]) (by simp [writeString, writeFrag])⟩

theorem formatFieldsV_delta (heap : Heap) (fuel : Nat)
    (fields : List (String × JsProp)) (hasE : Bool) (st : WalkSt)
    (r : WalkSt × Bool)
    (h : formatFieldsV heap fuel fields hasE st = some r) :
    ∃ δ, WalkDelta st r.1 δ := by
  match fuel, fields with
  | 0, _ => simp [formatFieldsV] at h
  | fuel + 1, [] =>
      simp only [formatFieldsV, Option.some.injEq] at h
      rw [← h]
      exact ⟨[], WalkDelta_nil st⟩
  | fuel + 1, (key, p) :: rest =>
      simp only [formatFieldsV] at h
      cases hf : formatFieldV heap fuel key p hasE st with
      | none => rw [hf] at h; simp at h
      | some stM =>
          rw [hf] at h
          exact exDelta_comp (formatFieldV_delta heap fuel key p hasE st stM hf)
            (formatFieldsV_delta heap fuel rest true stM r h)

theorem formatFieldV_delta (heap : Heap) (fuel : Nat) (key : String) (p : JsProp)
    (hasE : Bool) (st st' : WalkSt)
    (h : formatFieldV heap fuel key p hasE st = some st') :
    ∃ δ, WalkDelta st st' δ := by
  match fuel with
  | 0 => simp [formatFieldV] at h
  | fuel + 1 =>
    cases p with
    | val v =>
        simp only [formatFieldV] at h
        refine exDelta_comp (exDelta_writeItemPre hasE st)
          (exDelta_comp (exDelta_writeKey key _)
            (exDelta_comp (exDelta_writeString _ ": ")
              (formatV_delta heap fuel v _ st' h)))
    | getterThrow name msg =>
        simp only [formatFieldV, Option.some.injEq] at h
        rw [← h]
        refine exDelta_comp (exDelta_writeItemPre hasE st)
          (exDelta_comp (exDelta_writeKey key _)
            (exDelta_comp (exDelta_writeString _ ": ")
              ⟨_, WalkDelta_writeFrag _ _ (by simp [toksF, toks_hintContent])⟩))

end

/-! ## Fuel monotonicity and sufficiency -/

mutual

theorem formatV_mono (heap : Heap) (fuel : Nat) :
    ∀ (v : JsVal) (st r : WalkSt), formatV heap fuel v st = some r →
      formatV heap (fuel + 1) v st = some r := by
  match fuel with
  | 0 => intro v st r h; simp [formatV] at h
  | fuel + 1 =>
      intro v st r h
      cases v with
      | jsNull => simp only [formatV] at h ⊢; exact h
      | jsStr s => simp only [formatV] at h ⊢; exact h
      | jsNum n => simp only [formatV] at h ⊢; exact h
      | jsBool b => simp only [formatV] at h ⊢; exact h
      | jsUndefined => simp only [formatV] at h ⊢; exact h
      | jsObj id =>
          simp only [formatV] at h ⊢
          cases hc : st.seen.contains id
          · rw [hc] at h
            simp only [Bool.false_eq_true, reduceIte] at h ⊢
            exact formatObjectV_mono heap fuel id _ r h
          · rw [hc] at h
            simp only [reduceIte] at h ⊢
            exact h

theorem formatObjectV_mono (heap : Heap) (fuel : Nat) :
    ∀ (id : Nat) (st r : WalkSt), formatObjectV heap fuel id st = some r →
      formatObjectV heap (fuel + 1) id st = some r := by
  match fuel with
  | 0 => intro id st r h; simp [formatObjectV] at h
  | fuel + 1 =>
      intro id st r h
      simp only [formatObjectV] at h ⊢
      cases hff : formatFieldsV heap fuel (sortFields (lookupObj heap id)) false
          { writeString { st with cur := [] } "\x7b" with
            depth := (writeString { st with cur := [] } "\x7b").depth + 1 } with
      | none => rw [hff] at h; simp at h
      | some rr =>
          rw [hff] at h
          rw [formatFieldsV_mono heap fuel _ _ _ rr hff]
          exact h

theorem formatFieldsV_mono (heap : Heap) (fuel : Nat) :
    ∀ (fields : List (String × JsProp)) (hasE : Bool) (st : WalkSt)
      (r : WalkSt × Bool), formatFieldsV heap fuel fields hasE st = some r →
      formatFieldsV heap (fuel + 1) fields hasE st = some r := by
  match fuel with
  | 0 => intro fields hasE st r h; simp [formatFieldsV] at h
  | fuel + 1 =>
      intro fields hasE st r h
      cases fields with
      | nil => simp only [formatFieldsV] at h ⊢; exact h
      | cons kp rest =>
          obtain ⟨key, p⟩ := kp
          simp only [formatFieldsV] at h ⊢
          cases hf : formatFieldV heap fuel key p hasE st with
          | none => rw [hf] at h; simp at h
          | some stM =>
              rw [hf] at h
              rw [formatFieldV_mono heap fuel key p hasE st stM hf]
              exact formatFieldsV_mono heap fuel rest true stM r h

theorem formatFieldV_mono (heap : Heap) (fuel : Nat) :
    ∀ (key : String) (p : JsProp) (hasE : Bool) (st r : WalkSt),
      formatFieldV heap fuel key p hasE st = some r →
      formatFieldV heap (fuel + 1) key p hasE st = some r := by
  match fuel with
  | 0 => intro key p hasE st r h; simp [formatFieldV] at h
  | fuel + 1 =>
      intro key p hasE st r h
      cases p with
      | val v =>
          simp only [formatFieldV] at h ⊢
          exact formatV_mono heap fuel v _ r h
      | getterThrow name msg =>
          simp only [formatFieldV] at h ⊢
          exact h

end

theorem formatV_mono_le (heap : Heap) {fuel fuel' : Nat} (hle : fuel ≤ fuel')
    {v : JsVal} {st r : WalkSt} (h : formatV heap fuel v st = some r) :
    formatV heap fuel' v st = some r := by
  induction hle with
  | refl => exact h
  | step _ ih => exact formatV_mono heap _ _ _ _ ih

theorem formatFieldsV_mono_le (heap : Heap) {fuel fuel' : Nat} (hle : fuel ≤ fuel')
    {fields : List (String × JsProp)} {hasE : Bool} {st : WalkSt} {r : WalkSt × Bool}
    (h : formatFieldsV heap fuel fields hasE st = some r) :
    formatFieldsV heap fuel' fields hasE st = some r := by
  induction hle with
  | refl => exact h
  | step _ ih => exact formatFieldsV_mono heap _ _ _ _ _ ih

theorem formatV_seen_subset (heap : Heap) (fuel : Nat) (v : JsVal) (st st' : WalkSt)
    (h : formatV heap fuel v st = some st') : st.seen ⊆ st'.seen := by
  obtain ⟨δ, wd⟩ := formatV_delta heap fuel v st st' h
  intro x hx
  exact (wd.2.2.1 x).mpr (Or.inl hx)

theorem unvisited_mono (heap : Heap) {st st' : WalkSt}
    (h : st.seen ⊆ st'.seen) : unvisited heap st' ≤ unvisited heap st := by
  apply Finset.card_le_card
  apply Finset.sdiff_subset_sdiff (le_refl _)
  intro x hx
  simp only [List.mem_toFinset] at hx ⊢
  exact h hx

theorem unvisited_register_lt (heap : Heap) (st : WalkSt) (id : Nat)
    (hid : id ∈ heap.map Prod.fst) (hseen : id ∉ st.seen) :
    unvisited heap { st with seen := id :: st.seen, counts := st.counts ++ [(id, 0)] } <
      unvisited heap st := by
  apply Finset.card_lt_card
  constructor
  · intro x hx
    simp only [Finset.mem_sdiff, List.mem_toFinset, List.mem_cons] at hx ⊢
    exact ⟨hx.1, fun hmem => hx.2 (Or.inr hmem)⟩
  · intro hsub
    have hin : id ∈ (heap.map Prod.fst).toFinset \ st.seen.toFinset := by
      simp only [Finset.mem_sdiff, List.mem_toFinset]
      exact ⟨hid, hseen⟩
    have := hsub hin
    simp at this

theorem lookupObj_not_mem (heap : Heap) (id : Nat)
    (h : id ∉ heap.map Prod.fst) : lookupObj heap id = [] := by
  unfold lookupObj
  have : heap.find? (fun p => p.1 == id) = none := by
    simp only [List.find?_eq_none, beq_iff_eq]
    intro x hx he
    exact h (List.mem_map.mpr ⟨x, hx, he⟩)
  rw [this]
  rfl

theorem writeItemPre_seen (hasE : Bool) (st : WalkSt) :
    (writeItemPre hasE st).seen = st.seen := by
  cases hasE <;> simp [writeItemPre, writeString, writeFrag]

theorem writeKey_seen (key : String) (st : WalkSt) :
    (writeKey key st).seen = st.seen := by
  unfold writeKey
  cases isIdentifier key <;> simp [writeString, writeFrag]

theorem unvisited_congr (heap : Heap) {st st' : WalkSt}
    (h : st'.seen = st.seen) : unvisited heap st' = unvisited heap st := by
  simp [unvisited, h]

theorem enough_fuel (heap : Heap) (n : Nat) :
    (∀ (st : WalkSt) (v : JsVal), unvisited heap st ≤ n →
      ∃ fuel, (formatV heap fuel v st).isSome = true) ∧
    (∀ (fields : List (String × JsProp)) (st : WalkSt) (hasE : Bool),
      unvisited heap st ≤ n →
      ∃ fuel, (formatFieldsV heap fuel fields hasE st).isSome = true) := by
  induction n using Nat.strong_induction_on with
  | _ n IH =>
  have hval : ∀ (st : WalkSt) (v : JsVal), unvisited heap st ≤ n →
      ∃ fuel, (formatV heap fuel v st).isSome = true := by
    intro st v hU
    cases v with
    | jsNull => exact ⟨1, by simp [formatV]⟩
    | jsStr s => exact ⟨1, by simp [formatV]⟩
    | jsNum m => exact ⟨1, by simp [formatV]⟩
    | jsBool b => exact ⟨1, by simp [formatV]⟩
    | jsUndefined => exact ⟨1, by simp [formatV]⟩
    | jsObj id =>
        cases hc : st.seen.contains id
        case true =>
          have hm : id ∈ st.seen := by simpa using hc
          exact ⟨1, by simp [formatV, hm]⟩
        case false =>
        have hseen : id ∉ st.seen := by simpa using hc
        by_cases hid : id ∈ heap.map Prod.fst
        · have hlt : unvisited heap
              { st with seen := id :: st.seen, counts := st.counts ++ [(id, 0)] } <
              unvisited heap st :=
            unvisited_register_lt heap st id hid hseen
          have hUA : unvisited heap
              { writeString { writeFrag
                  { st with seen := id :: st.seen, counts := st.counts ++ [(id, 0)] }
                  (.source id) with cur := [] } "\x7b" with
                depth := (writeString { writeFrag
                  { st with seen := id :: st.seen, counts := st.counts ++ [(id, 0)] }
                  (.source id) with cur := [] } "\x7b").depth + 1 } =
              unvisited heap
              { st with seen := id :: st.seen, counts := st.counts ++ [(id, 0)] } := by
            apply unvisited_congr
            simp [writeString, writeFrag]
          obtain ⟨fuelf, hf⟩ := (IH (unvisited heap
              { writeString { writeFrag
                  { st with seen := id :: st.seen, counts := st.counts ++ [(id, 0)] }
                  (.source id) with cur := [] } "\x7b" with
                depth := (writeString { writeFrag
                  { st with seen := id :: st.seen, counts := st.counts ++ [(id, 0)] }
                  (.source id) with cur := [] } "\x7b").depth + 1 })
              (by rw [hUA]; exact lt_of_lt_of_le hlt hU)).2
            (sortFields (lookupObj heap id)) _ false (le_refl _)
          obtain ⟨r, hr⟩ := Option.isSome_iff_exists.mp hf
          exact ⟨fuelf + 2, by simp [formatV, hseen, formatObjectV, hr]⟩
        · have hfe : sortFields (lookupObj heap id) = [] := by
            rw [lookupObj_not_mem heap id hid]
            rfl
          exact ⟨3, by simp [formatV, hseen, formatObjectV, hfe, formatFieldsV]⟩
  have hflds : ∀ (fields : List (String × JsProp)) (st : WalkSt) (hasE : Bool),
      unvisited heap st ≤ n →
      ∃ fuel, (formatFieldsV heap fuel fields hasE st).isSome = true := by
    intro fields
    induction fields with
    | nil =>
        intro st hasE hU
        exact ⟨1, by simp [formatFieldsV]⟩
    | cons kp rest ihrest =>
        intro st hasE hU
        obtain ⟨key, p⟩ := kp
        cases p with
        | val v =>
            have hspre : (writeString (writeKey key (writeItemPre hasE st)) ": ").seen
                = st.seen := by
              simp [writeString, writeKey_seen, writeItemPre_seen]
            have hUpre : unvisited heap
                (writeString (writeKey key (writeItemPre hasE st)) ": ") ≤ n := by
              rw [unvisited_congr heap hspre]
              exact hU
            obtain ⟨fuelv, hv⟩ := hval _ v hUpre
            obtain ⟨stM, hstM⟩ := Option.isSome_iff_exists.mp hv
            have hUM : unvisited heap stM ≤ n :=
              le_trans (unvisited_mono heap
                (formatV_seen_subset heap fuelv v _ stM hstM)) hUpre
            obtain ⟨fuelr, hrg⟩ := ihrest stM true hUM
            obtain ⟨rr, hrr⟩ := Option.isSome_iff_exists.mp hrg
            have hv' : formatV heap (max fuelv fuelr) v
                (writeString (writeKey key (writeItemPre hasE st)) ": ") = some stM :=
              formatV_mono_le heap (le_max_left _ _) hstM
            have hr' : formatFieldsV heap (max fuelv fuelr + 1) rest true stM = some rr :=
              formatFieldsV_mono_le heap
                (le_trans (le_max_right _ _) (Nat.le_succ _)) hrr
            exact ⟨max fuelv fuelr + 2, by
              simp [formatFieldsV, formatFieldV, hv', hr']⟩
        | getterThrow name msg =>
            have hsM : (writeFrag
                (writeString (writeKey key (writeItemPre hasE st)) ": ")
                (.styled "hint" (hintContent name msg))).seen = st.seen := by
              simp [writeFrag, writeString, writeKey_seen, writeItemPre_seen]
            have hUM : unvisited heap (writeFrag
                (writeString (writeKey key (writeItemPre hasE st)) ": ")
                (.styled "hint" (hintContent name msg))) ≤ n := by
              rw [unvisited_congr heap hsM]
              exact hU
            obtain ⟨fuelr, hrg⟩ := ihrest _ true hUM
            obtain ⟨rr, hrr⟩ := Option.isSome_iff_exists.mp hrg
            have hr' := formatFieldsV_mono heap fuelr _ _ _ _ hrr
            exact ⟨fuelr + 2, by simp [formatFieldsV, formatFieldV, hr']⟩
  exact ⟨hval, hflds⟩

/-- C1: formatting terminates on every value graph (some finite fuel
always suffices, cycles included, because each identity is expanded at
most once); in the resulting buffer every reference id has at most one
source-marker thunk, and every back-reference is preceded (in resolution
order) by its source marker; concretely, a self-reference renders as
`#0 = { a: #0# }` and a mutual cycle as `#0 = { b: { a: #0# } }`, each
with the marker exactly once, before the back-reference. -/
theorem c1_cycles_terminate_sources_precede :
    (∀ (heap : Heap) (cfg : Config) (v : JsVal),
      ∃ fuel st', formatV heap fuel v (initSt cfg) = some st') ∧
    (∀ (heap : Heap) (cfg : Config) (fuel : Nat) (v : JsVal) (st' : WalkSt),
      formatV heap fuel v (initSt cfg) = some st' →
      (∀ rid, (toksL st'.cur).count (.src rid) ≤ 1) ∧
      refsOk [] (toksL st'.cur) = true) ∧
    formatWith heapSelf defaultConfig 100 (.jsObj 0) = some "#0 = { a: #0# }" ∧
    formatWith heapMutual defaultConfig 100 (.jsObj 0) =
      some "#0 = { b: { a: #0# } }" := by
  refine ⟨?_, ?_, ?_, ?_⟩
  · intro heap cfg v
    obtain ⟨fuel, hsome⟩ :=
      (enough_fuel heap (unvisited heap (initSt cfg))).1 (initSt cfg) v (le_refl _)
    obtain ⟨st', hst'⟩ := Option.isSome_iff_exists.mp hsome
    exact ⟨fuel, st', hst'⟩
  · intro heap cfg fuel v st' h
    obtain ⟨δ, wd⟩ := formatV_delta heap fuel v _ st' h
    have hδ : st'.cur = δ := by
      have := wd.1
      simpa [initSt] using this
    have hnd : (srcIds (toksL δ)).Nodup := wd.2.2.2.1
    have href : refsOk (initSt cfg).seen (toksL δ) = true := wd.2.2.2.2.2
    constructor
    · intro rid
      rw [hδ, count_src_eq]
      exact List.nodup_iff_count_le_one.mp hnd rid
    · rw [hδ]
      simpa [initSt] using href
  · simp [formatWith, formatV, formatObjectV, formatFieldsV, formatFieldV, initSt,
      defaultConfig, heapSelf, lookupObj, sortFields, insertField, charsLe,
      writeItemPre, writeKey, writeString, writeFrag, writeChars, isIdentifier,
      isIdentStart, isIdentCont, escape, escapeChar, hintContent, bumpCount,
      flush, processFragList, processFragment, renderPieces, repeatStr, lookupD]
    rfl
  · simp [formatWith, formatV, formatObjectV, formatFieldsV, formatFieldV, initSt,
      defaultConfig, heapMutual, lookupObj, sortFields, insertField, charsLe,
      writeItemPre, writeKey, writeString, writeFrag, writeChars, isIdentifier,
      isIdentStart, isIdentCont, escape, escapeChar, hintContent, bumpCount,
      flush, processFragList, processFragment, renderPieces, repeatStr, lookupD]
    rfl

theorem c1_cycles_terminate_sources_precede_witness :
    (∀ rid, (toksL stSelfFinal.cur).count (.src rid) ≤ 1) ∧
    refsOk [] (toksL stSelfFinal.cur) = true :=
  c1_cycles_terminate_sources_precede.2.1 heapSelf defaultConfig 100 (.jsObj 0)
    stSelfFinal (by
      simp [formatV, formatObjectV, formatFieldsV, formatFieldV, initSt,
        defaultConfig, heapSelf, lookupObj, sortFields, insertField, charsLe,
        writeItemPre, writeKey, writeString, writeFrag, writeChars, isIdentifier,
        isIdentStart, isIdentCont, escape, escapeChar, hintContent, bumpCount,
        stSelfFinal])

theorem numberFrom_append (a b : List Nat) (k : Nat) :
    numberFrom k (a ++ b) = numberFrom k a ++ numberFrom (k + a.length) b := by
  induction a generalizing k with
  | nil => simp [numberFrom]
  | cons x rest ih =>
      simp only [List.cons_append, numberFrom, List.length_cons]
      have ih' : numberFrom (k + 1) (rest.append b) =
          numberFrom (k + 1) rest ++ numberFrom (k + 1 + rest.length) b := ih (k + 1)
      have harith : k + 1 + rest.length = k + (rest.length + 1) := by omega
      rw [ih', harith]

theorem repeatedSrcIds_append (counts : List (Nat × Nat)) (a b : List Tok) :
    repeatedSrcIds counts (a ++ b) =
      repeatedSrcIds counts a ++ repeatedSrcIds counts b := by
  simp [repeatedSrcIds, srcIds, List.filterMap_append, List.filter_append]

mutual

theorem processFragment_numbers (counts : List (Nat × Nat)) (opts : FlushOptions)
    (f : Frag) (rs : RefSt) :
    (processFragment counts opts f rs).2.2.2 =
      ⟨rs.counter + (repeatedSrcIds counts (toksF f)).length,
       rs.numbers ++ numberFrom rs.counter (repeatedSrcIds counts (toksF f))⟩ := by
  obtain ⟨c, ns⟩ := rs
  match f with
  | .str s => simp [processFragment, toksF, repeatedSrcIds, srcIds, numberFrom]
  | .hardBreak i => simp [processFragment, toksF, repeatedSrcIds, srcIds, numberFrom]
  | .softBreak t i => simp [processFragment, toksF, repeatedSrcIds, srcIds, numberFrom]
  | .styled tag value =>
      simp [processFragment, toksF, processFragList_numbers counts opts value ⟨c, ns⟩]
  | .buf fragments =>
      simp [processFragment, flush, toksF,
        processFragList_numbers counts { opts with depth := opts.depth + 1 } fragments ⟨c, ns⟩]
  | .thunk fs => simp [processFragment, toksF, processFragList_numbers counts opts fs ⟨c, ns⟩]
  | .source rid =>
      by_cases h : lookupD counts rid = 0 <;>
        simp [processFragment, toksF, repeatedSrcIds, srcIds, numberFrom, h]
  | .backref rid => simp [processFragment, toksF, repeatedSrcIds, srcIds, numberFrom]

theorem processFragList_numbers (counts : List (Nat × Nat)) (opts : FlushOptions)
    (fs : List Frag) (rs : RefSt) :
    (processFragList counts opts fs rs).2.2.2 =
      ⟨rs.counter + (repeatedSrcIds counts (toksL fs)).length,
       rs.numbers ++ numberFrom rs.counter (repeatedSrcIds counts (toksL fs))⟩ := by
  obtain ⟨c, ns⟩ := rs
  match fs with
  | [] => simp [processFragList, toksL, repeatedSrcIds, srcIds, numberFrom]
  | f :: rest =>
      have h1 := processFragment_numbers counts opts f ⟨c, ns⟩
      have h2 := processFragList_numbers counts opts rest
        (processFragment counts opts f ⟨c, ns⟩).2.2.2
      simp only [processFragList, toksL, repeatedSrcIds_append, h1] at h2 ⊢
      rw [h2]
      simp only [List.length_append, numberFrom_append, List.append_assoc]
      have harith : c + (repeatedSrcIds counts (toksF f)).length +
          (repeatedSrcIds counts (toksL rest)).length =
          c + ((repeatedSrcIds counts (toksF f)).length +
            (repeatedSrcIds counts (toksL rest)).length) := by omega
      rw [harith]

end

/-- C5 (amended): reference numbers are assigned from the session counter
when source markers are resolved during flush — consecutively, in the
order the repeated identities' source markers occur in the buffer, which
is their first-encounter order (the walk registers one counter entry per
identity in first-visit order, and source tokens occur in exactly that
order); an identity whose reference count stayed zero yields no output
pieces and no number. Concretely, in `{w: A, x: B, y: B, z: A}` the
first-visited `A` gets number 0 and `B` gets 1, even though `B` was
re-encountered first. -/
theorem c5_amended_numbering :
    (∀ (counts : List (Nat × Nat)) (opts : FlushOptions) (fs : List Frag) (rs : RefSt),
      (flush counts opts fs rs).2 =
        ⟨rs.counter + (repeatedSrcIds counts (toksL fs)).length,
         rs.numbers ++ numberFrom rs.counter (repeatedSrcIds counts (toksL fs))⟩) ∧
    (∀ (heap : Heap) (cfg : Config) (fuel : Nat) (v : JsVal) (st' : WalkSt),
      formatV heap fuel v (initSt cfg) = some st' →
      srcIds (toksL st'.cur) = st'.counts.map Prod.fst) ∧
    (∀ (counts : List (Nat × Nat)) (opts : FlushOptions) (rid : Nat) (rs : RefSt),
      lookupD counts rid = 0 →
      processFragment counts opts (.source rid) rs = ([], 0, false, rs)) ∧
    (formatSession heapTwoRefs defaultConfig 100 (.jsObj 0)).map
      (fun r => (r.1.counts, r.2.2.numbers)) =
      some ([(0, 0), (1, 1), (2, 1)], [(1, 0), (2, 1)]) := by
  refine ⟨?_, ?_, ?_, ?_⟩
  · intro counts opts fs rs
    simp only [flush]
    exact processFragList_numbers counts opts fs rs
  · intro heap cfg fuel v st' h
    obtain ⟨δ, wd⟩ := formatV_delta heap fuel v _ st' h
    have hδ : st'.cur = δ := by
      have := wd.1
      simpa [initSt] using this
    have hk := wd.2.2.2.2.1
    rw [hδ]
    simpa [initSt] using hk.symm
  · intro counts opts rid rs h
    simp [processFragment, h]
  · simp [formatSession, formatV, formatObjectV, formatFieldsV, formatFieldV, initSt,
      defaultConfig, heapTwoRefs, lookupObj, sortFields, insertField, charsLe,
      writeItemPre, writeKey, writeString, writeFrag, writeChars, isIdentifier,
      isIdentStart, isIdentCont, escape, escapeChar, hintContent, bumpCount,
      flush, processFragList, processFragment, renderPieces, repeatStr, lookupD]

theorem c5_amended_numbering_witness :
    srcIds (toksL stSelfFinal.cur) = stSelfFinal.counts.map Prod.fst ∧
    processFragment [] ⟨0, "  ", none, fun _ => ("", "")⟩ (.source 5) ⟨0, []⟩ =
      ([], 0, false, ⟨0, []⟩) :=
  ⟨c5_amended_numbering.2.1 heapSelf defaultConfig 100 (.jsObj 0) stSelfFinal (by
      simp [formatV, formatObjectV, formatFieldsV, formatFieldV, initSt,
        defaultConfig, heapSelf, lookupObj, sortFields, insertField, charsLe,
        writeItemPre, writeKey, writeString, writeFrag, writeChars, isIdentifier,
        isIdentStart, isIdentCont, escape, escapeChar, hintContent, bumpCount,
        stSelfFinal]),
   c5_amended_numbering.2.2.1 [] ⟨0, "  ", none, fun _ => ("", "")⟩ 5 ⟨0, []⟩
     (by simp [lookupD])⟩
